import Mathlib

/-!
A shallow embedding of the routing and distribution core of twemproxy,
as declared by src/nc_server.h.  The repository ships only that header;
the bodies of the declared functions (nc_server.c, nc_ketama.c,
nc_modula.c, nc_random.c, ...) are absent, so every operation below is
modelled from the specification document, as recorded in each doc
comment.  Keys are byte strings, modelled as lists of naturals; hash
values are 32-bit unsigned, modelled as naturals (reduced mod 2^32 where
an embedded hash computes them); times are absolute microseconds,
modelled as naturals with 0 meaning "unset".
-/

namespace Twemproxy

/-- From struct continuum in nc_server.h: a continuum entry is a pair of
a server index and a hash value. -/
structure continuum where
  index : Nat
  value : Nat
deriving Repr, DecidableEq, Inhabited

/-- Hash value stored at position `i` of a continuum (default entry past
the end, as the C code never reads past `ncontinuum`). -/
def cval (c : List continuum) (i : Nat) : Nat :=
  (c.getD i default).value

/-- A continuum is sorted ascending by hash value. -/
def continuum_sorted (c : List continuum) : Prop :=
  List.Sorted (fun a b => a.value ≤ b.value) c

instance (c : List continuum) : Decidable (continuum_sorted c) := by
  unfold continuum_sorted List.Sorted
  infer_instance

/-- Modelled from the spec: the continuum lookup of section 3 —
binary-search for the smallest entry whose hash value is `≥ H(key)`.
The dispatch body (nc_ketama.c) is absent from the repository.  The
loop narrows the interval `[left, right)`; `fuel` is an explicit bound
on the number of iterations, which the interval width `right - left`
never exceeds (`ketama_select` supplies `c.length`). -/
def ketama_search (c : List continuum) (hash : Nat) : Nat → Nat → Nat → Nat
  | 0, left, _right => left
  | fuel + 1, left, right =>
    if left < right then
      let middle := left + (right - left) / 2
      if cval c middle < hash then
        ketama_search c hash fuel (middle + 1) right
      else
        ketama_search c hash fuel left middle
    else
      left

/-- Modelled from the spec: position of the entry the lookup selects —
the boundary the binary search returns, wrapped to position 0 when the
search ran past the end. -/
def ketama_select (c : List continuum) (hash : Nat) : Nat :=
  if ketama_search c hash c.length 0 c.length = c.length then 0
  else ketama_search c hash c.length 0 c.length

/-- Modelled from the spec: the server index dispatched for a hash is
the index field of the selected continuum entry. -/
def ketama_dispatch (c : List continuum) (hash : Nat) : Nat :=
  (c.getD (ketama_select c hash) default).index

theorem cval_mono {c : List continuum} (hs : continuum_sorted c)
    {i j : Nat} (hij : i ≤ j) (hj : j < c.length) : cval c i ≤ cval c j := by
  rcases Nat.eq_or_lt_of_le hij with heq | hlt
  · subst heq; exact Nat.le_refl _
  · have hi : i < c.length := Nat.lt_trans hlt hj
    have := List.Sorted.rel_get_of_lt hs
      (a := ⟨i, hi⟩) (b := ⟨j, hj⟩) (by exact hlt)
    unfold cval
    rwa [List.getD_eq_getElem _ _ hi, List.getD_eq_getElem _ _ hj]

theorem ketama_search_bounds (c : List continuum) (hash : Nat)
    (hs : continuum_sorted c) :
    ∀ fuel left right, right - left ≤ fuel → left ≤ right → right ≤ c.length →
      (∀ k, k < left → cval c k < hash) →
      (∀ k, right ≤ k → k < c.length → hash ≤ cval c k) →
      ketama_search c hash fuel left right ≤ c.length
      ∧ (∀ k, k < ketama_search c hash fuel left right → cval c k < hash)
      ∧ (∀ k, ketama_search c hash fuel left right ≤ k → k < c.length →
            hash ≤ cval c k) := by
  intro fuel
  induction fuel with
  | zero =>
    intro left right hf hlr hrl hlo hhi
    have hleft : left = right := by omega
    subst hleft
    simp only [ketama_search]
    exact ⟨Nat.le_trans hlr hrl, hlo, hhi⟩
  | succ n ih =>
    intro left right hf hlr hrl hlo hhi
    by_cases hcase : left < right
    · simp only [ketama_search, if_pos hcase]
      by_cases hmid : cval c (left + (right - left) / 2) < hash
      · simp only [if_pos hmid]
        apply ih (left + (right - left) / 2 + 1) right (by omega) (by omega) hrl
        · intro k hk
          exact Nat.lt_of_le_of_lt
            (cval_mono hs (by omega) (by omega)) hmid
        · exact hhi
      · simp only [if_neg hmid]
        apply ih left (left + (right - left) / 2) (by omega) (by omega) (by omega)
        · exact hlo
        · intro k hk hkc
          exact Nat.le_trans (Nat.le_of_not_lt hmid) (cval_mono hs hk hkc)
    · simp only [ketama_search, if_neg hcase]
      have hleft : left = right := by omega
      subst hleft
      exact ⟨Nat.le_trans hlr hrl, hlo, hhi⟩

theorem ketama_select_bounds (c : List continuum) (hash : Nat)
    (hs : continuum_sorted c) :
    ketama_search c hash c.length 0 c.length ≤ c.length
    ∧ (∀ k, k < ketama_search c hash c.length 0 c.length → cval c k < hash)
    ∧ (∀ k, ketama_search c hash c.length 0 c.length ≤ k → k < c.length →
          hash ≤ cval c k) :=
  ketama_search_bounds c hash hs c.length 0 c.length (by omega) (by omega)
    (by omega) (fun k hk => absurd hk (Nat.not_lt_zero k))
    (fun k hk hkc => absurd hkc (Nat.not_lt_of_le hk))

/-- C1: for a continuum sorted ascending by hash value, the lookup
selects an in-range position; when some entry has hash value `≥ h` the
selected entry is the one at the least such position — every earlier
entry is `< h` and its value is minimal among qualifying entries — and
when no entry qualifies the lookup wraps to the entry at position 0;
the dispatched server index is the selected entry's index field. -/
theorem continuum_lookup_correct (c : List continuum) (h : Nat)
    (hs : continuum_sorted c) (hne : c ≠ []) :
    ketama_select c h < c.length
    ∧ ((∃ i, i < c.length ∧ h ≤ cval c i) →
        h ≤ cval c (ketama_select c h)
        ∧ (∀ k, k < ketama_select c h → cval c k < h)
        ∧ (∀ i, i < c.length → h ≤ cval c i →
              cval c (ketama_select c h) ≤ cval c i))
    ∧ ((∀ i, i < c.length → cval c i < h) → ketama_select c h = 0)
    ∧ ketama_dispatch c h = (c.getD (ketama_select c h) default).index := by
  obtain ⟨hb, hlow, hhigh⟩ := ketama_select_bounds c h hs
  have hlen : 0 < c.length := List.length_pos.mpr hne
  refine ⟨?_, ?_, ?_, rfl⟩
  · unfold ketama_select
    by_cases he : ketama_search c h c.length 0 c.length = c.length
    · simp only [if_pos he]; exact hlen
    · simp only [if_neg he]; omega
  · rintro ⟨i, hi, hqual⟩
    have hne2 : ketama_search c h c.length 0 c.length ≠ c.length := by
      intro he
      exact Nat.not_lt_of_le hqual (hlow i (by rw [he]; exact hi))
    have hsel : ketama_select c h = ketama_search c h c.length 0 c.length := by
      unfold ketama_select
      simp only [if_neg hne2]
    refine ⟨?_, ?_, ?_⟩
    · rw [hsel]; exact hhigh _ (Nat.le_refl _) (by omega)
    · intro k hk; rw [hsel] at hk; exact hlow k hk
    · intro j hj hjq
      have hsj : ketama_search c h c.length 0 c.length ≤ j := by
        by_contra hlt
        exact Nat.not_lt_of_le hjq (hlow j (Nat.lt_of_not_le hlt))
      rw [hsel]
      exact cval_mono hs hsj hj
  · intro hall
    unfold ketama_select
    have he : ketama_search c h c.length 0 c.length = c.length := by
      by_contra hne2
      have hlt : ketama_search c h c.length 0 c.length < c.length := by omega
      exact Nat.not_lt_of_le (hhigh _ (Nat.le_refl _) hlt) (hall _ hlt)
    simp only [if_pos he]

/-- Witness for C1 at a concrete sorted continuum and hash. -/
theorem continuum_lookup_correct_witness :
    15 ≤ cval [⟨5, 10⟩, ⟨2, 20⟩, ⟨7, 30⟩] (ketama_select [⟨5, 10⟩, ⟨2, 20⟩, ⟨7, 30⟩] 15) := by
  have := continuum_lookup_correct [⟨5, 10⟩, ⟨2, 20⟩, ⟨7, 30⟩] 15
    (by decide) (by decide)
  exact (this.2.1 ⟨1, by decide, by decide⟩).1

/-- From struct server in nc_server.h: the routing- and health-relevant
fields.  Server connections are modelled by identifiers held in the
connection queue `s_conn_q`. -/
structure server where
  idx : Nat
  weight : Nat
  ns_conn_q : Nat
  s_conn_q : List Nat
  next_retry : Nat
  failure_count : Nat
deriving Repr, DecidableEq, Inhabited

/-- The three distribution types of the dist_type field (dist_type_t). -/
inductive dist_type where
  | dist_ketama
  | dist_modula
  | dist_random
deriving Repr, DecidableEq, Inhabited

/-- From struct server_pool in nc_server.h: the fields the distribution,
health and lookup operations touch.  The key hasher is a function field,
as the hash_t function pointer is in the source; `rand_seed` abstracts
the RNG drawn upon by the random distribution, which has no field in the
header. -/
structure server_pool where
  server : List server
  ncontinuum : Nat
  nserver_continuum : Nat
  continuum : List continuum
  nlive_server : Nat
  next_rebuild : Nat
  dist_type : dist_type
  key_hash : List Nat → Nat
  hash_tag : List Nat
  server_retry_timeout : Nat
  server_failure_limit : Nat
  server_connections : Nat
  auto_eject_hosts : Bool
  rand_seed : Nat
deriving Inhabited

/-- Modelled from the spec: a server is live iff its next_retry is unset
(0) or the current time has reached it (section 3 invariants). -/
def server_live (now : Nat) (s : server) : Bool :=
  s.next_retry == 0 || decide (s.next_retry ≤ now)

/-- Modelled from the spec: the fnv1a_32 key hash listed in section 4.1
(its body is absent from the repository): a fold over the key bytes with
xor-then-multiply, truncated to 32 bits. -/
def hash_fnv1a_32 (key : List Nat) : Nat :=
  key.foldl (fun h b => ((h ^^^ b) * 16777619) % 4294967296) 2166136261

/-- Modelled from the spec: hash-tag extraction, section 4.1 Query step
(i) — when a delimiter pair is configured and both delimiters occur in
order inside the key, hashing is restricted to the substring between
them; following the proxy's scan, the opening delimiter is the first
occurrence in the key and the closing one the first occurrence after it
(the body in nc_server.c is absent from the repository). -/
def hash_tag_extract (tag : List Nat) (key : List Nat) : List Nat :=
  match tag with
  | a :: b :: _ =>
    match key.findIdx? (fun x => x == a) with
    | none => key
    | some i =>
      match (key.drop (i + 1)).findIdx? (fun x => x == b) with
      | none => key
      | some j => (key.drop (i + 1)).take j
  | _ => key

/-- Modelled from the spec: the pool's hash of a key is the configured
hasher applied to the hash-tagged key. -/
def server_pool_hash (p : server_pool) (key : List Nat) : Nat :=
  p.key_hash (hash_tag_extract p.hash_tag key)

/-- Modelled from the spec: modula lookup computes the hash modulo
nserver_continuum and returns the index of the continuum entry at that
position (nc_modula.c is absent from the repository). -/
def modula_dispatch (c : List continuum) (ncont : Nat) (hash : Nat) : Nat :=
  (c.getD (hash % ncont) default).index

/-- Modelled from the spec: random lookup returns a live server ignoring
the key; the RNG state is abstracted as a seed reduced modulo the number
of continuum points (nc_random.c is absent from the repository). -/
def random_dispatch (c : List continuum) (ncont : Nat) (seed : Nat) : Nat :=
  (c.getD (seed % ncont) default).index

/-- Modelled from the spec: server_pool_idx of nc_server.h — hash the
tagged key and apply the distribution's lookup rule to obtain a server
index (the body in nc_server.c is absent from the repository). -/
def server_pool_idx (p : server_pool) (key : List Nat) : Nat :=
  match p.dist_type with
  | .dist_ketama => ketama_dispatch p.continuum (server_pool_hash p key)
  | .dist_modula => modula_dispatch p.continuum p.nserver_continuum (server_pool_hash p key)
  | .dist_random => random_dispatch p.continuum p.ncontinuum p.rand_seed

theorem findIdx?_first {a : Nat} :
    ∀ (P R : List Nat), a ∉ P →
      (P ++ a :: R).findIdx? (fun x => x == a) = some P.length := by
  intro P
  induction P with
  | nil =>
    intro R _
    simp [List.findIdx?_cons]
  | cons x xs ih =>
    intro R hmem
    have hx : (x == a) = false := by
      simp only [beq_eq_false_iff_ne]
      intro hxa
      exact hmem (by simp [hxa])
    have hxs : a ∉ xs := fun hm => hmem (List.mem_cons_of_mem x hm)
    simp [List.cons_append, List.findIdx?_cons, hx,
      List.findIdx?_succ, ih R hxs]

theorem findIdx?_absent {a : Nat} (L : List Nat) (h : a ∉ L) :
    L.findIdx? (fun x => x == a) = none := by
  rw [List.findIdx?_eq_none_iff]
  intro x hx
  simp only [beq_eq_false_iff_ne]
  intro hxa
  exact h (hxa ▸ hx)

theorem hash_tag_extract_first (a b : Nat) (t P X S : List Nat)
    (ha : a ∉ P) (hb : b ∉ X) :
    hash_tag_extract (a :: b :: t) (P ++ a :: (X ++ b :: S)) = X := by
  simp only [hash_tag_extract]
  rw [findIdx?_first P (X ++ b :: S) ha]
  dsimp only
  have hdrop : (P ++ a :: (X ++ b :: S)).drop (P.length + 1)
      = X ++ b :: S := by
    have : P ++ a :: (X ++ b :: S) = (P ++ [a]) ++ (X ++ b :: S) := by
      simp
    rw [this]
    have hlen : P.length + 1 = (P ++ [a]).length := by simp
    rw [hlen, List.drop_left]
  rw [hdrop, findIdx?_first X S hb]
  dsimp only
  rw [List.take_left]

theorem hash_tag_extract_id (a b : Nat) (t X : List Nat) (hb : b ∉ X) :
    hash_tag_extract (a :: b :: t) X = X := by
  simp only [hash_tag_extract]
  match hfi : X.findIdx? (fun x => x == a) with
  | none => rfl
  | some i =>
    have : b ∉ X.drop (i + 1) := fun hm => hb (List.mem_of_mem_drop hm)
    dsimp only
    rw [findIdx?_absent _ this]

/-- C3 (amended): for every pool whose hash tag starts with the
delimiter pair (a, b), and every key of the form P ++ [a] ++ X ++ [b] ++ S
in which a does not occur in P and b does not occur in X — so the tag
found by the proxy's scan (first a, then first b after it) encloses
exactly X — the server chosen for the key equals the server chosen for
the bare key X. -/
theorem hash_tag_idx_eq (p : server_pool) (a b : Nat) (t P X S : List Nat)
    (htag : p.hash_tag = a :: b :: t) (ha : a ∉ P) (hb : b ∉ X) :
    server_pool_idx p (P ++ a :: (X ++ b :: S)) = server_pool_idx p X := by
  have hh : server_pool_hash p (P ++ a :: (X ++ b :: S)) = server_pool_hash p X := by
    unfold server_pool_hash
    rw [htag, hash_tag_extract_first a b t P X S ha hb,
      hash_tag_extract_id a b t X hb]
  unfold server_pool_idx
  rw [hh]

/-- Concrete two-server modula pool with hash tag bytes 123 and 125
(the characters left brace and right brace) and the fnv1a_32 hasher,
used as a test vector. -/
def cpool : server_pool where
  server := [⟨0, 1, 0, [], 0, 0⟩, ⟨1, 1, 0, [], 0, 0⟩]
  ncontinuum := 2
  nserver_continuum := 2
  continuum := [⟨0, 0⟩, ⟨1, 1⟩]
  nlive_server := 2
  next_rebuild := 0
  dist_type := .dist_modula
  key_hash := hash_fnv1a_32
  hash_tag := [123, 125]
  server_retry_timeout := 30000000
  server_failure_limit := 2
  server_connections := 1
  auto_eject_hosts := true
  rand_seed := 0

/-- Counterexample to C3 as stated: the key with bytes
123 120 125 123 121 125 (the string "\x7bx\x7d\x7by\x7d") contains an
occurrence of delimiter 123 followed later by 125 with the substring
[121] between them, yet the pool routes the key by its first tag [120],
so the chosen server differs from the one chosen for the bare key
[121]. -/
theorem hash_tag_occurrence_counterexample :
    cpool.hash_tag = [123, 125]
    ∧ [123, 120, 125, 123, 121, 125]
        = [123, 120, 125] ++ 123 :: ([121] ++ 125 :: [])
    ∧ server_pool_idx cpool [123, 120, 125, 123, 121, 125]
        ≠ server_pool_idx cpool [121] := by
  refine ⟨rfl, rfl, ?_⟩
  decide

/-- Witness for the amended C3 at a concrete pool and key. -/
theorem hash_tag_idx_eq_witness :
    server_pool_idx cpool ([] ++ 123 :: ([120] ++ 125 :: []))
      = server_pool_idx cpool [120] :=
  hash_tag_idx_eq cpool 123 125 [] [] [120] [] rfl (by decide) (by decide)

/-- Modelled from the spec: the modula continuum build of section 4.1 —
one entry per server slot, dead ones included, with hash value equal to
the slot index; nserver_continuum counts the servers live and dead; the
live-server count is recomputed (nc_modula.c is absent from the
repository). -/
def modula_update (p : server_pool) (now : Nat) : server_pool :=
  { p with
    continuum := (List.range p.server.length).map
      (fun i => ({ index := i, value := i } : continuum)),
    ncontinuum := p.server.length,
    nserver_continuum := p.server.length,
    nlive_server := p.server.countP (server_live now),
    next_rebuild := 0 }

/-- Positions of the live servers in a pool's server array. -/
def live_indices (servers : List server) (now : Nat) : List Nat :=
  (List.range servers.length).filter
    (fun i => server_live now (servers.getD i default))

/-- Modelled from the spec: the random continuum build of section 4.1 —
same shape as modula but only live servers are placed, so the continuum
size equals the live-server count (nc_random.c is absent from the
repository). -/
def random_update (p : server_pool) (now : Nat) : server_pool :=
  { p with
    continuum := (List.range (live_indices p.server now).length).map
      (fun j => ({ index := (live_indices p.server now).getD j 0, value := j } : continuum)),
    ncontinuum := (live_indices p.server now).length,
    nlive_server := p.server.countP (server_live now),
    next_rebuild := 0 }

/-- Total weight of the live servers of a pool. -/
def ketama_total_weight (servers : List server) (now : Nat) : Nat :=
  (servers.filter (server_live now)).foldl (fun acc s => acc + s.weight) 0

/-- Number of continuum points a live server of weight `w` receives in
a ketama build: 160 times the floor of `w * nlive / total_weight`. -/
def ketama_npoints (nlive tw w : Nat) : Nat :=
  160 * (w * nlive / tw)

/-- The `n` continuum points of the server at position `i`, with hash
values drawn from the point-value function `pv`. -/
def ketama_points (pv : Nat → Nat → Nat) (n i : Nat) : List continuum :=
  (List.range n).map (fun k => ({ index := i, value := pv i k } : continuum))

/-- Modelled from the spec: the unsorted point list of a ketama build —
for each live server at position `i` of weight `w`, exactly
`160 * floor(w * nlive / total_weight)` points carrying index `i`.  In
the absent nc_ketama.c the point values are MD5-derived 32-bit words;
the derivation is abstracted as the function `pv` from server position
and point number to hash value. -/
def ketama_gen (pv : Nat → Nat → Nat) (servers : List server) (now : Nat) :
    List continuum :=
  (List.range servers.length).flatMap (fun i =>
    if server_live now (servers.getD i default) then
      ketama_points pv
        (ketama_npoints (servers.countP (server_live now))
          (ketama_total_weight servers now)
          (servers.getD i default).weight) i
    else [])

/-- Ordering of continuum entries by hash value. -/
def contLE (a b : continuum) : Prop := a.value ≤ b.value

instance : DecidableRel contLE := fun a b => Nat.decLe a.value b.value

instance : IsTotal continuum contLE := ⟨fun a b => Nat.le_total a.value b.value⟩

instance : IsTrans continuum contLE := ⟨fun _ _ _ h1 h2 => Nat.le_trans h1 h2⟩

/-- Modelled from the spec: the ketama continuum build of section 4.1 —
generate the weighted per-server points and sort them ascending by hash
value (nc_ketama.c is absent from the repository). -/
def ketama_update (pv : Nat → Nat → Nat) (p : server_pool) (now : Nat) :
    server_pool :=
  { p with
    continuum := List.insertionSort contLE (ketama_gen pv p.server now),
    ncontinuum := (ketama_gen pv p.server now).length,
    nserver_continuum := p.server.length,
    nlive_server := p.server.countP (server_live now),
    next_rebuild := 0 }

/-- Modelled from the spec: a continuum rebuild dispatches on the pool's
distribution type (section 4.1 Build). -/
def server_pool_rebuild (pv : Nat → Nat → Nat) (p : server_pool) (now : Nat) :
    server_pool :=
  match p.dist_type with
  | .dist_ketama => ketama_update pv p now
  | .dist_modula => modula_update p now
  | .dist_random => random_update p now

/-- Modelled from the spec: the deadline-triggered rebuild — when a
rebuild is scheduled (next_rebuild nonzero) and its time has passed, the
pool's continuum is rebuilt (section 4.1 Rebuild policy). -/
def server_pool_update (pv : Nat → Nat → Nat) (p : server_pool) (now : Nat) :
    server_pool :=
  if p.next_rebuild ≠ 0 ∧ p.next_rebuild ≤ now then
    server_pool_rebuild pv p now
  else p

/-- The continuum invariant of section 3: every entry's server index is
strictly below the number of servers, and the entries are sorted
ascending by hash value. -/
def continuum_ok (nservers : Nat) (c : List continuum) : Prop :=
  (∀ e ∈ c, e.index < nservers) ∧ continuum_sorted c

instance (n : Nat) (c : List continuum) : Decidable (continuum_ok n c) := by
  unfold continuum_ok
  infer_instance

/-- C6: a modula rebuild emits exactly one continuum entry per server
slot, dead ones included, with hash value equal to the slot index;
nserver_continuum is the total number of server slots, live and dead;
and the lookup of any key returns the server at index
H(key) mod nserver_continuum. -/
theorem modula_pool_correct (p : server_pool) (now : Nat) (key : List Nat)
    (hd : p.dist_type = dist_type.dist_modula) (hne : p.server ≠ []) :
    (modula_update p now).nserver_continuum = p.server.length
    ∧ (modula_update p now).continuum.length = p.server.length
    ∧ (∀ i, i < p.server.length →
        (modula_update p now).continuum.getD i default
          = ({ index := i, value := i } : continuum))
    ∧ server_pool_idx (modula_update p now) key
        = server_pool_hash p key % p.server.length := by
  have hn : 0 < p.server.length := List.length_pos.mpr hne
  have hclen : (modula_update p now).continuum.length = p.server.length := by
    simp [modula_update]
  have hget : ∀ i, i < p.server.length →
      (modula_update p now).continuum.getD i default
        = ({ index := i, value := i } : continuum) := by
    intro i hi
    have hi2 : i < (modula_update p now).continuum.length := by
      rw [hclen]; exact hi
    rw [List.getD_eq_getElem _ _ hi2]
    simp [modula_update]
  refine ⟨rfl, hclen, hget, ?_⟩
  have hmod : server_pool_hash p key % p.server.length < p.server.length :=
    Nat.mod_lt _ hn
  unfold server_pool_idx
  rw [show (modula_update p now).dist_type = p.dist_type from rfl, hd]
  dsimp only
  unfold modula_dispatch
  rw [show server_pool_hash (modula_update p now) key = server_pool_hash p key from rfl,
    show (modula_update p now).nserver_continuum = p.server.length from rfl,
    hget _ hmod]

/-- Witness for C6 at the concrete modula pool. -/
theorem modula_pool_correct_witness :
    server_pool_idx (modula_update cpool 0) [107]
      = server_pool_hash cpool [107] % cpool.server.length :=
  (modula_pool_correct cpool 0 [107] rfl (by decide)).2.2.2

theorem countP_const_index (i j : Nat) (l : List continuum)
    (hall : ∀ e ∈ l, e.index = j) :
    l.countP (fun e => e.index == i) = if i = j then l.length else 0 := by
  induction l with
  | nil => simp
  | cons x xs ih =>
    have hx : x.index = j := hall x (List.mem_cons_self x xs)
    have hxs : ∀ e ∈ xs, e.index = j :=
      fun e he => hall e (List.mem_cons_of_mem x he)
    rw [List.countP_cons, ih hxs]
    by_cases hij : i = j
    · subst hij
      simp [hx]
    · have : (x.index == i) = false := by
        simp only [beq_eq_false_iff_ne]
        rw [hx]
        exact fun he => hij he.symm
      simp [hij, this]

theorem countP_flatMap_range (f : Nat → List continuum) (i : Nat)
    (hf : ∀ j, ∀ e ∈ f j, e.index = j) :
    ∀ n, ((List.range n).flatMap f).countP (fun e => e.index == i)
      = if i < n then (f i).length else 0 := by
  intro n
  induction n with
  | zero => simp
  | succ m ih =>
    rw [List.range_succ, List.flatMap_append, List.countP_append, ih]
    have hm : ([m].flatMap f).countP (fun e => e.index == i)
        = if i = m then (f m).length else 0 := by
      simp only [List.flatMap, List.map, List.flatten]
      rw [List.append_nil]
      exact countP_const_index i m (f m) (hf m)
    rw [hm]
    by_cases h1 : i < m
    · simp [h1, Nat.lt_succ_of_lt h1, Nat.ne_of_lt h1]
    · by_cases h2 : i = m
      · subst h2
        simp [h1, Nat.lt_succ_self]
      · have : ¬ i < m + 1 := by omega
        simp [h1, h2, this]

theorem ketama_gen_index_lt (pv : Nat → Nat → Nat) (servers : List server)
    (now : Nat) : ∀ e ∈ ketama_gen pv servers now, e.index < servers.length := by
  intro e he
  obtain ⟨j, hj, hej⟩ := List.mem_flatMap.mp he
  have hjn : j < servers.length := List.mem_range.mp hj
  by_cases hl : server_live now (servers.getD j default)
  · rw [if_pos hl] at hej
    obtain ⟨k, _, hk⟩ := List.mem_map.mp hej
    rw [← hk]
    exact hjn
  · rw [if_neg hl] at hej
    exact absurd hej (List.not_mem_nil e)

/-- C7: the ketama rebuild generates, for each live server of weight w
in a pool with nlive live servers and total live weight total_weight,
exactly 160 * floor(w * nlive / total_weight) continuum points carrying
that server's position, and the rebuilt continuum is sorted ascending by
hash value. -/
theorem ketama_update_correct (pv : Nat → Nat → Nat) (p : server_pool)
    (now : Nat) (i : Nat) (hi : i < p.server.length)
    (hlive : server_live now (p.server.getD i default) = true) :
    (ketama_update pv p now).continuum.countP (fun e => e.index == i)
      = 160 * ((p.server.getD i default).weight
          * p.server.countP (server_live now)
          / ketama_total_weight p.server now)
    ∧ continuum_sorted (ketama_update pv p now).continuum := by
  constructor
  · have hperm := List.perm_insertionSort contLE (ketama_gen pv p.server now)
    have hcnt := List.Perm.countP_eq (fun e => e.index == i) hperm
    rw [show (ketama_update pv p now).continuum
        = List.insertionSort contLE (ketama_gen pv p.server now) from rfl, hcnt]
    unfold ketama_gen
    rw [countP_flatMap_range _ i ?hall p.server.length]
    · rw [if_pos hi, if_pos hlive]
      unfold ketama_points ketama_npoints
      simp
    case hall =>
      intro j e he
      by_cases hl : server_live now (p.server.getD j default)
      · rw [if_pos hl] at he
        obtain ⟨k, _, hk⟩ := List.mem_map.mp he
        rw [← hk]
      · rw [if_neg hl] at he
        exact absurd he (List.not_mem_nil e)
  · exact List.sorted_insertionSort contLE (ketama_gen pv p.server now)

/-- Witness for C7 at the concrete two-server pool with a constant
point-value function. -/
theorem ketama_update_correct_witness :
    (ketama_update (fun _ _ => 0) cpool 0).continuum.countP (fun e => e.index == 0)
      = 160 * ((cpool.server.getD 0 default).weight
          * cpool.server.countP (server_live 0)
          / ketama_total_weight cpool.server 0) :=
  (ketama_update_correct (fun _ _ => 0) cpool 0 0 (by decide) (by decide)).1

/-- C2: every continuum rebuild — whichever distribution the pool uses —
re-establishes the continuum invariant (all entry indices below the
server-array length, entries sorted ascending by hash value), and the
deadline-triggered update preserves it. -/
theorem continuum_invariant_rebuild (pv : Nat → Nat → Nat) (p : server_pool)
    (now : Nat) :
    continuum_ok p.server.length (server_pool_rebuild pv p now).continuum
    ∧ (continuum_ok p.server.length p.continuum →
        continuum_ok p.server.length (server_pool_update pv p now).continuum) := by
  have hre : continuum_ok p.server.length (server_pool_rebuild pv p now).continuum := by
    unfold server_pool_rebuild
    cases hd : p.dist_type with
    | dist_ketama =>
      dsimp only
      constructor
      · intro e he
        have hperm := List.perm_insertionSort contLE (ketama_gen pv p.server now)
        exact ketama_gen_index_lt pv p.server now e ((List.Perm.mem_iff hperm).mp he)
      · exact List.sorted_insertionSort contLE (ketama_gen pv p.server now)
    | dist_modula =>
      dsimp only
      constructor
      · intro e he
        obtain ⟨j, hj, hej⟩ := List.mem_map.mp he
        rw [← hej]
        exact List.mem_range.mp hj
      · unfold continuum_sorted List.Sorted
        rw [show (modula_update p now).continuum
            = (List.range p.server.length).map
              (fun i => ({ index := i, value := i } : continuum)) from rfl,
          List.pairwise_map]
        exact (List.pairwise_lt_range _).imp Nat.le_of_lt
    | dist_random =>
      dsimp only
      constructor
      · intro e he
        obtain ⟨j, hj, hej⟩ := List.mem_map.mp he
        rw [← hej]
        have hjl : j < (live_indices p.server now).length := List.mem_range.mp hj
        have hmem : (live_indices p.server now).getD j 0 ∈ live_indices p.server now := by
          rw [List.getD_eq_getElem _ _ hjl]
          exact List.getElem_mem hjl
        have := (List.mem_filter.mp hmem).1
        exact List.mem_range.mp this
      · unfold continuum_sorted List.Sorted
        have hr : (random_update p now).continuum
            = (List.range (live_indices p.server now).length).map
              (fun j => ({ index := (live_indices p.server now).getD j 0, value := j } : continuum)) := rfl
        rw [hr, List.pairwise_map]
        exact (List.pairwise_lt_range _).imp Nat.le_of_lt
  refine ⟨hre, ?_⟩
  intro hok
  unfold server_pool_update
  by_cases hc : p.next_rebuild ≠ 0 ∧ p.next_rebuild ≤ now
  · rw [if_pos hc]
    exact hre
  · rw [if_neg hc]
    exact hok

/-- Witness for C2 at the concrete pool. -/
theorem continuum_invariant_rebuild_witness :
    continuum_ok cpool.server.length
      (server_pool_update (fun _ _ => 0) cpool 0).continuum :=
  (continuum_invariant_rebuild (fun _ _ => 0) cpool 0).2 (by decide)

/-- Close all of a server's connections. -/
def server_close_conns (s : server) : server :=
  { s with s_conn_q := [], ns_conn_q := 0 }

/-- Modelled from the spec: server_ok of nc_server.h — a completed
request exchange without error resets the consecutive-failure counter
to 0 and clears the retry timestamp (the body in nc_server.c is absent
from the repository). -/
def server_ok (s : server) : server :=
  { s with failure_count := 0, next_retry := 0 }

/-- Recompute the pool's live-server count from the live predicate. -/
def pool_recount (p : server_pool) (now : Nat) : server_pool :=
  { p with nlive_server := p.server.countP (server_live now) }

/-- Modelled from the spec: the pool-level reaction to a completed
exchange without error on the server at position `i`. -/
def server_pool_ok (p : server_pool) (now i : Nat) : server_pool :=
  pool_recount
    { p with server := p.server.set i (server_ok (p.server.getD i default)) }
    now

/-- Modelled from the spec: failure accounting of section 4.2 — a
transport error or timeout on the server at position `i` increments its
failure_count; when auto_eject_hosts is set and the incremented count
reaches server_failure_limit, the server is marked dead: next_retry is
set server_retry_timeout past now, all its connections are closed, and
the pool schedules a continuum rebuild (the body in nc_server.c is
absent from the repository). -/
def server_pool_failure (p : server_pool) (now i : Nat) : server_pool :=
  if p.auto_eject_hosts
      ∧ p.server_failure_limit ≤ (p.server.getD i default).failure_count + 1 then
    pool_recount
      { p with
        server := p.server.set i
          ({ server_close_conns (p.server.getD i default) with
              failure_count := (p.server.getD i default).failure_count + 1,
              next_retry := now + p.server_retry_timeout }),
        next_rebuild := now }
      now
  else
    pool_recount
      { p with
        server := p.server.set i
          ({ p.server.getD i default with
              failure_count := (p.server.getD i default).failure_count + 1 }) }
      now

/-- Modelled from the spec: the retry-probe outcome of section 4.2 —
success clears next_retry and failure_count and triggers a rebuild;
failure pushes next_retry another server_retry_timeout ahead. -/
def server_pool_probe (p : server_pool) (now i : Nat) (success : Bool) :
    server_pool :=
  if success then
    pool_recount
      { p with
        server := p.server.set i (server_ok (p.server.getD i default)),
        next_rebuild := now }
      now
  else
    pool_recount
      { p with
        server := p.server.set i
          ({ p.server.getD i default with
              next_retry := now + p.server_retry_timeout }) }
      now

theorem getD_set_self (l : List server) (i : Nat) (a : server)
    (h : i < l.length) : (l.set i a).getD i default = a := by
  rw [List.getD_eq_getElem _ _ (by simpa using h)]
  exact List.getElem_set_self (by simpa using h)

/-- C4: a completed request exchange without error sets the server's
failure_count to 0 and next_retry to 0; a transport error or timeout
increments failure_count by 1, and when the pool has auto_eject_hosts
set and the incremented count reaches server_failure_limit the server
becomes dead with next_retry = now + server_retry_timeout, its
connection queue is emptied, and a continuum rebuild is scheduled for
the pool; otherwise next_retry is untouched and nothing is scheduled. -/
theorem failure_accounting_correct (p : server_pool) (now i : Nat)
    (hi : i < p.server.length) :
    ((server_pool_ok p now i).server.getD i default).failure_count = 0
    ∧ ((server_pool_ok p now i).server.getD i default).next_retry = 0
    ∧ ((server_pool_failure p now i).server.getD i default).failure_count
        = (p.server.getD i default).failure_count + 1
    ∧ ((p.auto_eject_hosts
          ∧ p.server_failure_limit ≤ (p.server.getD i default).failure_count + 1) →
        ((server_pool_failure p now i).server.getD i default).next_retry
            = now + p.server_retry_timeout
        ∧ ((server_pool_failure p now i).server.getD i default).s_conn_q = []
        ∧ (server_pool_failure p now i).next_rebuild = now)
    ∧ (¬ (p.auto_eject_hosts
          ∧ p.server_failure_limit ≤ (p.server.getD i default).failure_count + 1) →
        ((server_pool_failure p now i).server.getD i default).next_retry
            = (p.server.getD i default).next_retry
        ∧ (server_pool_failure p now i).next_rebuild = p.next_rebuild) := by
  have hok : (server_pool_ok p now i).server.getD i default
      = server_ok (p.server.getD i default) := by
    unfold server_pool_ok pool_recount
    exact getD_set_self p.server i _ hi
  refine ⟨by rw [hok]; rfl, by rw [hok]; rfl, ?_, ?_, ?_⟩
  all_goals
    unfold server_pool_failure pool_recount
    by_cases hc : p.auto_eject_hosts
        ∧ p.server_failure_limit ≤ (p.server.getD i default).failure_count + 1
  · rw [if_pos hc]
    dsimp only
    rw [getD_set_self p.server i _ hi]
  · rw [if_neg hc]
    dsimp only
    rw [getD_set_self p.server i _ hi]
  · rw [if_pos hc]
    intro _
    dsimp only
    rw [getD_set_self p.server i _ hi]
    exact ⟨rfl, rfl, rfl⟩
  · rw [if_neg hc]
    intro hc2
    exact absurd hc2 hc
  · rw [if_pos hc]
    intro hc2
    exact absurd hc hc2
  · rw [if_neg hc]
    intro _
    dsimp only
    rw [getD_set_self p.server i _ hi]
    exact ⟨rfl, rfl⟩

/-- Witness for C4 at the concrete pool (limit 2, one prior failure). -/
theorem failure_accounting_correct_witness :
    ((server_pool_ok cpool 7 0).server.getD 0 default).failure_count = 0 :=
  (failure_accounting_correct cpool 7 0 (by decide)).1

/-- The live-count invariant of section 3: nlive_server equals the
number of live servers and hence never exceeds the server-array
length. -/
def nlive_ok (p : server_pool) (now : Nat) : Prop :=
  p.nlive_server = p.server.countP (server_live now)
  ∧ p.nlive_server ≤ p.server.length

/-- C5: a server is live exactly when its next_retry is unset or the
current time has reached it, and each operation that touches a server's
next_retry — completed exchange, failure accounting, retry probe,
rebuild — leaves nlive_server equal to the number of live servers,
hence at most the length of the server array. -/
theorem nlive_consistency (p : server_pool) (now i : Nat) (success : Bool)
    (pv : Nat → Nat → Nat) :
    (∀ s, server_live now s = true ↔ (s.next_retry = 0 ∨ s.next_retry ≤ now))
    ∧ nlive_ok (server_pool_ok p now i) now
    ∧ nlive_ok (server_pool_failure p now i) now
    ∧ nlive_ok (server_pool_probe p now i success) now
    ∧ nlive_ok (server_pool_rebuild pv p now) now := by
  have hlive : ∀ s, server_live now s = true ↔ (s.next_retry = 0 ∨ s.next_retry ≤ now) := by
    intro s
    unfold server_live
    rw [Bool.or_eq_true, beq_iff_eq, decide_eq_true_eq]
  have hcnt : ∀ q : server_pool, nlive_ok (pool_recount q now) now := by
    intro q
    refine ⟨rfl, ?_⟩
    show q.server.countP (server_live now) ≤ q.server.length
    exact List.countP_le_length _
  refine ⟨hlive, ?_, ?_, ?_, ?_⟩
  · exact hcnt _
  · unfold server_pool_failure
    by_cases hc : p.auto_eject_hosts
        ∧ p.server_failure_limit ≤ (p.server.getD i default).failure_count + 1
    · rw [if_pos hc]; exact hcnt _
    · rw [if_neg hc]; exact hcnt _
  · unfold server_pool_probe
    by_cases hs : success = true
    · rw [if_pos hs]; exact hcnt _
    · rw [if_neg hs]; exact hcnt _
  · unfold server_pool_rebuild
    cases hd : p.dist_type with
    | dist_ketama =>
      dsimp only
      exact ⟨rfl, List.countP_le_length _⟩
    | dist_modula =>
      dsimp only
      exact ⟨rfl, List.countP_le_length _⟩
    | dist_random =>
      dsimp only
      exact ⟨rfl, List.countP_le_length _⟩

/-- Modelled from the spec: server_conn of nc_server.h — return a
usable server connection: create one (identifier `fresh`) when below
the per-server cap and creation succeeds, otherwise pick the first
queued connection; none models the NULL pointer returned when nothing
can be provided (the body in nc_server.c is absent from the
repository). -/
def server_conn (cap : Nat) (can_create : Bool) (fresh : Nat)
    (s : server) : Option Nat :=
  if s.ns_conn_q < cap then
    if can_create then some fresh else none
  else
    s.s_conn_q.head?

/-- Modelled from the spec: server_pool_conn of nc_server.h — resolve
the key to a server and return one of its connections; none models the
NULL pointer returned when the continuum is empty (all servers
ejected), when the selected server is dead while auto_eject_hosts is
set, or when no connection can be provided (the body in nc_server.c is
absent from the repository). -/
def server_pool_conn (p : server_pool) (now : Nat) (key : List Nat)
    (can_create : Bool) (fresh : Nat) : Option Nat :=
  if p.ncontinuum = 0 then none
  else
    match p.server[server_pool_idx p key]? with
    | none => none
    | some s =>
      if p.auto_eject_hosts ∧ server_live now s = false then none
      else server_conn p.server_connections can_create fresh s

/-- C10: unavailability is signalled by a null connection pointer,
modelled as none of an optional result: when all servers are ejected
(empty continuum), when the selected server is dead while
auto_eject_hosts is set, when connection creation fails below the cap,
or when the cap is reached with no queued connection, server_pool_conn
and server_conn return none — never an error-code result. -/
theorem conn_null_on_unavailable (p : server_pool) (now : Nat)
    (key : List Nat) (can_create : Bool) (fresh : Nat) (s : server) :
    (p.ncontinuum = 0 → server_pool_conn p now key can_create fresh = none)
    ∧ (∀ s2, p.server[server_pool_idx p key]? = some s2 →
        p.ncontinuum ≠ 0 → p.auto_eject_hosts = true →
        server_live now s2 = false →
        server_pool_conn p now key can_create fresh = none)
    ∧ (s.ns_conn_q < p.server_connections →
        server_conn p.server_connections false fresh s = none)
    ∧ (p.server_connections ≤ s.ns_conn_q → s.s_conn_q = [] →
        server_conn p.server_connections can_create fresh s = none) := by
  refine ⟨?_, ?_, ?_, ?_⟩
  · intro h0
    unfold server_pool_conn
    rw [if_pos h0]
  · intro s2 hs2 hnc hae hdead
    unfold server_pool_conn
    rw [if_neg hnc, hs2]
    dsimp only
    rw [if_pos ⟨hae, hdead⟩]
  · intro hlt
    unfold server_conn
    rw [if_pos hlt]
    rfl
  · intro hge hq
    unfold server_conn
    rw [if_neg (Nat.not_lt_of_le hge), hq]
    rfl

/-- Witness for C10: creation failure below the cap yields none. -/
theorem conn_null_on_unavailable_witness :
    server_conn cpool.server_connections false 9 ⟨0, 1, 0, [], 0, 0⟩ = none :=
  (conn_null_on_unavailable cpool 0 [] false 9 ⟨0, 1, 0, [], 0, 0⟩).2.2.1
    (by decide)

/-- The five states of enum server_pools_reload_state in nc_server.h. -/
inductive reload_state where
  | RSTATE_OLD_AND_ACTIVE
  | RSTATE_OLD_TO_SHUTDOWN
  | RSTATE_OLD_DRAINING
  | RSTATE_NEW_WAIT_FOR_OLD
  | RSTATE_NEW
deriving Repr, DecidableEq, Inhabited

/-- The reload-relevant projection of struct server_pool: a stable pool
identifier `pid` (modelling the pool's address), the pool name
(interned to a natural), the client-connection count, the reload state
and the counterpart link, by pool identifier (modelling the
pool_counterpart pointer, with none for NULL). -/
structure pool_ctl where
  pid : Nat
  name : Nat
  nc_conn_q : Nat
  reload_state : reload_state
  pool_counterpart : Option Nat
deriving Repr, DecidableEq, Inhabited

/-- A pool is in replacement limbo when its reload state is
OLD_TO_SHUTDOWN, OLD_DRAINING or NEW_WAIT_FOR_OLD. -/
def limbo : reload_state → Bool
  | .RSTATE_OLD_TO_SHUTDOWN => true
  | .RSTATE_OLD_DRAINING => true
  | .RSTATE_NEW_WAIT_FOR_OLD => true
  | _ => false

/-- Find the pool of a given name in a registry (the pairing rule of
section 4.4 matches pools by name). -/
def find_by_name (ps : List pool_ctl) (nm : Nat) : Option pool_ctl :=
  ps.find? (fun q => q.name == nm)

/-- The old-registry half of the kick: an old pool is paired with the
new pool of the same name when there is one, and is set to shut down
either way. -/
def kick_old (new : List pool_ctl) (o : pool_ctl) : pool_ctl :=
  match find_by_name new o.name with
  | some n => { o with reload_state := .RSTATE_OLD_TO_SHUTDOWN,
                       pool_counterpart := some n.pid }
  | none => { o with reload_state := .RSTATE_OLD_TO_SHUTDOWN,
                     pool_counterpart := none }

/-- The new-registry half of the kick: a new pool waits for the old
pool of the same name when there is one, with a null counterpart
otherwise. -/
def kick_new (old : List pool_ctl) (n : pool_ctl) : pool_ctl :=
  match find_by_name old n.name with
  | some o => { n with reload_state := .RSTATE_NEW_WAIT_FOR_OLD,
                       pool_counterpart := some o.pid }
  | none => { n with reload_state := .RSTATE_NEW_WAIT_FOR_OLD,
                     pool_counterpart := none }

/-- Modelled from the spec: server_pools_kick_replacement of
nc_server.h (body absent from the repository) — walk both registries,
establish counterpart links by name, set old counterparts to
OLD_TO_SHUTDOWN and new ones to NEW_WAIT_FOR_OLD; the result is the
combined registry the reload then drives to completion. -/
def server_pools_kick_replacement (old new : List pool_ctl) : List pool_ctl :=
  old.map (kick_old new) ++ new.map (kick_new old)

/-- Listener-closing step of the finish poll: an OLD_TO_SHUTDOWN pool
closes its listener and enters OLD_DRAINING. -/
def advance_shutdown (p : pool_ctl) : pool_ctl :=
  if p.reload_state = .RSTATE_OLD_TO_SHUTDOWN then
    { p with reload_state := .RSTATE_OLD_DRAINING }
  else p

/-- A fully drained old pool: draining with no client connection left. -/
def drained (p : pool_ctl) : Bool :=
  p.reload_state == .RSTATE_OLD_DRAINING && p.nc_conn_q == 0

/-- Whether a counterpart link no longer blocks promotion: it is null,
or it points at one of the freed (drained) pools. -/
def cp_gone (dpids : List Nat) : Option Nat → Bool
  | none => true
  | some c => dpids.contains c

/-- Promotion step of the finish poll: a waiting new pool whose
counterpart has drained away — or which never had one — becomes NEW and
its cross-link is cleared. -/
def promote (dpids : List Nat) (p : pool_ctl) : pool_ctl :=
  if p.reload_state = .RSTATE_NEW_WAIT_FOR_OLD
      ∧ cp_gone dpids p.pool_counterpart = true then
    { p with reload_state := .RSTATE_NEW, pool_counterpart := none }
  else p

/-- The final scan of the finish poll: true when no pool of the
registry is still in replacement limbo. -/
def no_limbo_chk : List pool_ctl → Bool
  | [] => true
  | p :: rest => !(limbo p.reload_state) && no_limbo_chk rest

/-- Modelled from the spec: server_pools_finish_replacement of
nc_server.h (body absent from the repository) — close the listener of
every OLD_TO_SHUTDOWN pool (advancing it to OLD_DRAINING), free every
drained old pool, promote each waiting new pool whose counterpart is
gone, and report whether the replacement has completed.  Returns the
updated registry and the verdict. -/
def server_pools_finish_replacement (ps : List pool_ctl) :
    List pool_ctl × Bool :=
  let ps1 := ps.map advance_shutdown
  let dpids := (ps1.filter drained).map (fun p => p.pid)
  let ps3 := (ps1.filter (fun p => !(drained p))).map (promote dpids)
  (ps3, no_limbo_chk ps3)

theorem no_limbo_chk_iff :
    ∀ ps : List pool_ctl,
      no_limbo_chk ps = true ↔ ∀ p ∈ ps, limbo p.reload_state = false := by
  intro ps
  induction ps with
  | nil => simp [no_limbo_chk]
  | cons x xs ih =>
    rw [show no_limbo_chk (x :: xs)
        = (!(limbo x.reload_state) && no_limbo_chk xs) from rfl,
      Bool.and_eq_true, Bool.not_eq_true', ih]
    constructor
    · rintro ⟨h1, h2⟩ p hp
      rcases List.mem_cons.mp hp with rfl | hm
      · exact h1
      · exact h2 p hm
    · intro h
      exact ⟨h x (List.mem_cons_self x xs),
        fun p hp => h p (List.mem_cons_of_mem x hp)⟩

theorem limbo_false_iff (s : reload_state) :
    limbo s = false
      ↔ (s ≠ reload_state.RSTATE_OLD_TO_SHUTDOWN
          ∧ s ≠ reload_state.RSTATE_OLD_DRAINING
          ∧ s ≠ reload_state.RSTATE_NEW_WAIT_FOR_OLD) := by
  cases s <;> simp [limbo]

/-- C8: finish_replacement returns true exactly when, after performing
its transitions, no pool of the resulting registry remains in
OLD_TO_SHUTDOWN, OLD_DRAINING or NEW_WAIT_FOR_OLD. -/
theorem finish_replacement_iff (ps : List pool_ctl) :
    (server_pools_finish_replacement ps).2 = true
    ↔ ∀ p ∈ (server_pools_finish_replacement ps).1,
        p.reload_state ≠ reload_state.RSTATE_OLD_TO_SHUTDOWN
        ∧ p.reload_state ≠ reload_state.RSTATE_OLD_DRAINING
        ∧ p.reload_state ≠ reload_state.RSTATE_NEW_WAIT_FOR_OLD := by
  rw [show (server_pools_finish_replacement ps).2
      = no_limbo_chk (server_pools_finish_replacement ps).1 from rfl,
    no_limbo_chk_iff]
  constructor
  · intro h p hp
    exact (limbo_false_iff p.reload_state).mp (h p hp)
  · intro h p hp
    exact (limbo_false_iff p.reload_state).mpr (h p hp)

/-- Witness for C8 at a registry of one drained old pool linked to a
waiting new pool: the poll frees the former, promotes the latter, and
reports completion. -/
theorem finish_replacement_iff_witness :
    (server_pools_finish_replacement
      [⟨0, 5, 0, reload_state.RSTATE_OLD_DRAINING, some 1⟩,
       ⟨1, 5, 0, reload_state.RSTATE_NEW_WAIT_FOR_OLD, some 0⟩]).2 = true :=
  (finish_replacement_iff
      [⟨0, 5, 0, reload_state.RSTATE_OLD_DRAINING, some 1⟩,
       ⟨1, 5, 0, reload_state.RSTATE_NEW_WAIT_FOR_OLD, some 0⟩]).mpr
    (by decide)

/-- Old-side states of a replacement pairing. -/
def old_side (s : reload_state) : Prop :=
  s = reload_state.RSTATE_OLD_TO_SHUTDOWN ∨ s = reload_state.RSTATE_OLD_DRAINING

instance (s : reload_state) : Decidable ( old_side s) := by
  unfold old_side
  infer_instance

/-- A valid (old, new) pairing of reload states (section 4.4). -/
def valid_pairing (a b : reload_state) : Prop :=
  ( old_side a ∧ b = reload_state.RSTATE_NEW_WAIT_FOR_OLD)
  ∨ (a = reload_state.RSTATE_NEW_WAIT_FOR_OLD ∧ old_side b)

instance (a b : reload_state) : Decidable (valid_pairing a b) := by
  unfold valid_pairing
  infer_instance

/-- The counterpart-symmetry invariant of section 3: any linked pair of
pools of the registry points at each other and forms a valid (old, new)
pairing. -/
def cp_invariant (ps : List pool_ctl) : Prop :=
  ∀ p ∈ ps, ∀ q ∈ ps, p.pool_counterpart = some q.pid →
    q.pool_counterpart = some p.pid
    ∧ valid_pairing p.reload_state q.reload_state

instance (ps : List pool_ctl) : Decidable (cp_invariant ps) := by
  unfold cp_invariant
  infer_instance

theorem kick_old_pid (new : List pool_ctl) (o : pool_ctl) :
    (kick_old new o).pid = o.pid := by
  unfold kick_old
  cases find_by_name new o.name <;> rfl

theorem kick_old_state (new : List pool_ctl) (o : pool_ctl) :
    (kick_old new o).reload_state = reload_state.RSTATE_OLD_TO_SHUTDOWN := by
  unfold kick_old
  cases find_by_name new o.name <;> rfl

theorem kick_new_pid (old : List pool_ctl) (n : pool_ctl) :
    (kick_new old n).pid = n.pid := by
  unfold kick_new
  cases find_by_name old n.name <;> rfl

theorem kick_new_state (old : List pool_ctl) (n : pool_ctl) :
    (kick_new old n).reload_state = reload_state.RSTATE_NEW_WAIT_FOR_OLD := by
  unfold kick_new
  cases find_by_name old n.name <;> rfl

theorem advance_pid (p : pool_ctl) : (advance_shutdown p).pid = p.pid := by
  unfold advance_shutdown
  split <;> rfl

theorem advance_cp (p : pool_ctl) :
    (advance_shutdown p).pool_counterpart = p.pool_counterpart := by
  unfold advance_shutdown
  split <;> rfl

theorem promote_pid (d : List Nat) (p : pool_ctl) :
    (promote d p).pid = p.pid := by
  unfold promote
  split <;> rfl

theorem promote_eq_self_of_cp (d : List Nat) (p : pool_ctl) (x : Nat)
    (h : (promote d p).pool_counterpart = some x) : promote d p = p := by
  unfold promote at h ⊢
  by_cases hc : p.reload_state = reload_state.RSTATE_NEW_WAIT_FOR_OLD
      ∧ cp_gone d p.pool_counterpart = true
  · rw [if_pos hc] at h
    exact absurd h (by simp)
  · rw [if_neg hc]

theorem advance_state_old (p : pool_ctl) (h : old_side p.reload_state) :
    (advance_shutdown p).reload_state = reload_state.RSTATE_OLD_DRAINING := by
  unfold advance_shutdown
  rcases h with h | h
  · rw [if_pos h]
  · rw [if_neg (by rw [h]; exact fun hh => nomatch hh)]
    exact h

theorem advance_eq_self_of_nw (p : pool_ctl)
    (h : p.reload_state = reload_state.RSTATE_NEW_WAIT_FOR_OLD) :
    advance_shutdown p = p := by
  unfold advance_shutdown
  rw [if_neg (by rw [h]; exact fun hh => nomatch hh)]

theorem find_by_name_self (ps : List pool_ctl) (a : pool_ctl)
    (hnd : (ps.map (fun p => p.name)).Nodup) (ha : a ∈ ps) :
    find_by_name ps a.name = some a := by
  induction ps with
  | nil => cases ha
  | cons x xs ih =>
    rw [List.map_cons, List.nodup_cons] at hnd
    rcases List.mem_cons.mp ha with rfl | hmem
    · unfold find_by_name
      exact List.find?_cons_of_pos _ (by simp)
    · by_cases hx : x.name = a.name
      · exfalso
        apply hnd.1
        rw [hx]
        exact List.mem_map_of_mem _ hmem
      · unfold find_by_name
        rw [List.find?_cons_of_neg _ (by simpa using hx)]
        exact ih hnd.2 hmem

theorem finish_core_cp (ps : List pool_ctl) (d : List Nat)
    (hnd : (ps.map (fun p => p.pid)).Nodup) (hinv : cp_invariant ps)
    (hd : ∀ x ∈ d, ∃ r, r ∈ ps.map advance_shutdown ∧ r.pid = x ∧ drained r = true) :
    cp_invariant
      (((ps.map advance_shutdown).filter (fun p => !(drained p))).map (promote d)) := by
  have hnd1 : ((ps.map advance_shutdown).map (fun p => p.pid)).Nodup := by
    rw [List.map_map]
    have he : List.map ((fun p => p.pid) ∘ advance_shutdown) ps
        = List.map (fun p => p.pid) ps :=
      List.map_congr_left (fun a _ => advance_pid a)
    rw [he]
    exact hnd
  intro p2 hp2 q2 hq2 hcp2
  obtain ⟨p1, hp1f, rfl⟩ := List.mem_map.mp hp2
  obtain ⟨q1, hq1f, rfl⟩ := List.mem_map.mp hq2
  have hp1m : p1 ∈ ps.map advance_shutdown := (List.mem_filter.mp hp1f).1
  have hp1nd : drained p1 = false := by
    have := (List.mem_filter.mp hp1f).2
    simpa using this
  have hq1m : q1 ∈ ps.map advance_shutdown := (List.mem_filter.mp hq1f).1
  obtain ⟨p0, hp0, rfl⟩ := List.mem_map.mp hp1m
  obtain ⟨q0, hq0, rfl⟩ := List.mem_map.mp hq1m
  have hpkeep : promote d (advance_shutdown p0) = advance_shutdown p0 :=
    promote_eq_self_of_cp d _ _ hcp2
  have hcp0 : p0.pool_counterpart = some q0.pid := by
    rw [hpkeep, advance_cp, promote_pid, advance_pid] at hcp2
    exact hcp2
  obtain ⟨hsym, hpair⟩ := hinv p0 hp0 q0 hq0 hcp0
  rcases hpair with ⟨hpo, hqn⟩ | ⟨hpn, hqo⟩
  · have hq_adv : advance_shutdown q0 = q0 := advance_eq_self_of_nw q0 hqn
    have hpid_not : p0.pid ∉ d := by
      intro hmem
      obtain ⟨r, hr, hrpid, hrdr⟩ := hd p0.pid hmem
      have hre : r = advance_shutdown p0 :=
        List.inj_on_of_nodup_map hnd1 hr
          (List.mem_map_of_mem _ hp0)
          (by rw [advance_pid]; exact hrpid)
      rw [hre] at hrdr
      rw [hrdr] at hp1nd
      exact nomatch hp1nd
    have hq_keep : promote d q0 = q0 := by
      unfold promote
      rw [if_neg ?hcond]
      case hcond =>
        rintro ⟨_, h2⟩
        rw [hsym] at h2
        exact hpid_not (by simpa [cp_gone] using h2)
    constructor
    · rw [hq_adv, hq_keep, hpkeep, advance_pid]
      exact hsym
    · rw [hpkeep, hq_adv, hq_keep, advance_state_old p0 hpo, hqn]
      exact Or.inl ⟨Or.inr rfl, rfl⟩
  · have hp_adv : advance_shutdown p0 = p0 := advance_eq_self_of_nw p0 hpn
    have hq_keep : promote d (advance_shutdown q0) = advance_shutdown q0 := by
      unfold promote
      rw [if_neg ?hcond2]
      case hcond2 =>
        rintro ⟨h1, _⟩
        rw [advance_state_old q0 hqo] at h1
        exact nomatch h1
    constructor
    · rw [hq_keep, advance_cp, hpkeep, advance_pid]
      exact hsym
    · rw [hpkeep, hp_adv, hq_keep, advance_state_old q0 hqo, hpn]
      exact Or.inr ⟨rfl, Or.inr rfl⟩

theorem finish_preserves_cp (ps : List pool_ctl)
    (hnd : (ps.map (fun p => p.pid)).Nodup) (hinv : cp_invariant ps) :
    cp_invariant (server_pools_finish_replacement ps).1 := by
  have hd : ∀ x ∈ ((ps.map advance_shutdown).filter drained).map (fun p => p.pid),
      ∃ r, r ∈ ps.map advance_shutdown ∧ r.pid = x ∧ drained r = true := by
    intro x hx
    obtain ⟨r, hr, hrx⟩ := List.mem_map.mp hx
    exact ⟨r, (List.mem_filter.mp hr).1, hrx, (List.mem_filter.mp hr).2⟩
  exact finish_core_cp ps _ hnd hinv hd

/-- C9: counterpart links are symmetric with a valid (old, new) state
pairing between any two operations of the hot reload:
kick_replacement establishes the invariant on the combined registry
(given name-unique registries with globally unique pool identities),
and the finish poll — including the clearing of links on the terminal
transition to NEW — preserves it on any registry with unique pool
identities. -/
theorem counterpart_symmetry (old new : List pool_ctl)
    (hold : (old.map (fun p => p.name)).Nodup)
    (hnew : (new.map (fun p => p.name)).Nodup)
    (hpid : ((old ++ new).map (fun p => p.pid)).Nodup) :
    cp_invariant (server_pools_kick_replacement old new)
    ∧ ∀ ps : List pool_ctl, (ps.map (fun p => p.pid)).Nodup →
        cp_invariant ps → cp_invariant (server_pools_finish_replacement ps).1 := by
  have hpid2 : (old.map (fun p => p.pid)).Nodup
      ∧ (new.map (fun p => p.pid)).Nodup
      ∧ (old.map (fun p => p.pid)).Disjoint (new.map (fun p => p.pid)) := by
    rw [List.map_append, List.nodup_append] at hpid
    exact hpid
  refine ⟨?_, fun ps h1 h2 => finish_preserves_cp ps h1 h2⟩
  intro p hp q hq hcp
  rcases List.mem_append.mp hp with hpo | hpn
  · obtain ⟨o, ho, rfl⟩ := List.mem_map.mp hpo
    match hfo : find_by_name new o.name with
    | none =>
      exfalso
      unfold kick_old at hcp
      rw [hfo] at hcp
      exact absurd hcp (by simp)
    | some n =>
      have hn : n ∈ new := List.mem_of_find?_eq_some hfo
      have hnname : n.name = o.name := by
        have := List.find?_some hfo
        simpa using this
      have hq_pid : n.pid = q.pid := by
        unfold kick_old at hcp
        rw [hfo] at hcp
        simpa using hcp
      rcases List.mem_append.mp hq with hqo | hqn2
      · exfalso
        obtain ⟨o2, ho2, rfl⟩ := List.mem_map.mp hqo
        have h2 : o2.pid = n.pid := by
          rw [hq_pid, kick_old_pid]
        apply hpid2.2.2 (List.mem_map_of_mem (fun p => p.pid) ho2)
        rw [h2]
        exact List.mem_map_of_mem (fun p => p.pid) hn
      · obtain ⟨n2, hn2, rfl⟩ := List.mem_map.mp hqn2
        have h2 : n2.pid = n.pid := by
          rw [hq_pid, kick_new_pid]
        have hn2n : n2 = n :=
          List.inj_on_of_nodup_map hpid2.2.1 hn2 hn h2
        subst hn2n
        constructor
        · unfold kick_new
          rw [hnname, find_by_name_self old o hold ho, kick_old_pid]
        · rw [kick_old_state, kick_new_state]
          exact Or.inl ⟨Or.inl rfl, rfl⟩
  · obtain ⟨n0, hn0, rfl⟩ := List.mem_map.mp hpn
    match hfn : find_by_name old n0.name with
    | none =>
      exfalso
      unfold kick_new at hcp
      rw [hfn] at hcp
      exact absurd hcp (by simp)
    | some o =>
      have ho : o ∈ old := List.mem_of_find?_eq_some hfn
      have honame : o.name = n0.name := by
        have := List.find?_some hfn
        simpa using this
      have hq_pid : o.pid = q.pid := by
        unfold kick_new at hcp
        rw [hfn] at hcp
        simpa using hcp
      rcases List.mem_append.mp hq with hqo | hqn2
      · obtain ⟨o2, ho2, rfl⟩ := List.mem_map.mp hqo
        have h2 : o2.pid = o.pid := by
          rw [hq_pid, kick_old_pid]
        have ho2o : o2 = o :=
          List.inj_on_of_nodup_map hpid2.1 ho2 ho h2
        subst ho2o
        constructor
        · unfold kick_old
          rw [honame, find_by_name_self new n0 hnew hn0, kick_new_pid]
        · rw [kick_old_state, kick_new_state]
          exact Or.inr ⟨rfl, Or.inl rfl⟩
      · exfalso
        obtain ⟨n2, hn2, rfl⟩ := List.mem_map.mp hqn2
        have h2 : n2.pid = o.pid := by
          rw [hq_pid, kick_new_pid]
        apply hpid2.2.2 (List.mem_map_of_mem (fun p => p.pid) ho)
        rw [← h2]
        exact List.mem_map_of_mem (fun p => p.pid) hn2

/-- Witness for C9: kicking a one-pool registry against a same-named
replacement establishes the invariant. -/
theorem counterpart_symmetry_witness :
    cp_invariant (server_pools_kick_replacement
      [⟨0, 5, 1, reload_state.RSTATE_OLD_AND_ACTIVE, none⟩]
      [⟨1, 5, 0, reload_state.RSTATE_NEW, none⟩]) :=
  (counterpart_symmetry
    [⟨0, 5, 1, reload_state.RSTATE_OLD_AND_ACTIVE, none⟩]
    [⟨1, 5, 0, reload_state.RSTATE_NEW, none⟩]
    (by decide) (by decide) (by decide)).1

end Twemproxy
